import Mathlib

/-!
# Verification of the cargo-spellcheck core pipeline

A shallow embedding of the coordinate-translation and patch pipeline of the
repository: the tokenizer (`src/checker/mod.rs`), the markdown overlay
(`src/markdown.rs`), the patch engine (`src/action/mod.rs`) and the
interactive selection controller (`src/action/interactive.rs`).

Text buffers are modelled as `List Char`; a list position plays the role of
a byte offset (exact for the ASCII inputs involved; UTF-8 byte lengths are
modelled explicitly where the tokenizer's end-of-input flush depends on
them). Fallible code (Rust panics: out-of-bounds slicing, failed asserts,
`unimplemented!`) is modelled with `Option`, `none` denoting a panic.
-/

namespace Spellcheck

/-- `core::ops::Range<usize>`: half-open interval `[start, end)`. -/
structure Range where
  start : Nat
  «end» : Nat
deriving DecidableEq, Repr

/-- Slice `l[r.start .. r.end]` as total clamping extraction (used where the
source guarantees bounds). -/
def listSlice {α : Type} (l : List α) (r : Range) : List α :=
  (l.drop r.start).take (r.«end» - r.start)

/-- Rust slice `l[a..b]`: panics (`none`) unless `a ≤ b ∧ b ≤ l.length`. -/
def rustSlice {α : Type} (l : List α) (a b : Nat) : Option (List α) :=
  if a ≤ b ∧ b ≤ l.length then some ((l.drop a).take (b - a)) else none

/-- Modelled from the spec: `Span` (from the missing `bandaid.rs`) is a
source location, a line number plus a byte-column range within that line;
a `Span` never crosses a line boundary. -/
structure Span where
  line : Nat
  range : Range
deriving DecidableEq, Repr

/-- Modelled from the spec: `Span::covers_line` — a single-line span covers
exactly its own line. -/
def Span.covers_line (s : Span) (l : Nat) : Bool :=
  s.line == l

/-- Modelled from the spec: `BandAid` (from the missing `bandaid.rs`), one
approved edit: a `Span` plus a literal replacement string. -/
structure BandAid where
  span : Span
  replacement : List Char
deriving DecidableEq, Repr

/-- Inner `while let Some(bandaid) = nxt.take()` loop of `correct_lines`
(`src/action/mod.rs`): apply `bandaid` and all following band-aids covering
`lineNumber` to `content`, starting at `remainderColumn`. Returns the bytes
written for the rest of this line, the pending band-aid (`nxt`) and the rest
of the iterator. `Span → Range` conversion always succeeds in the model
because the modelled `Span` is single-line by construction. -/
def lineLoop (lineNumber : Nat) (content : List Char) :
    BandAid → List BandAid → Nat → Option (List Char × Option BandAid × List BandAid)
  | bandaid, rest, remainderColumn =>
    let range : Range := bandaid.span.range
    do
    let pre ←
      if range.start > remainderColumn then
        rustSlice content remainderColumn range.start
      else
        some []
    let out := pre ++ bandaid.replacement
    let remainderColumn := range.«end»
    match rest with
    | [] =>
      let tail ←
        if remainderColumn < content.length then
          rustSlice content remainderColumn content.length
        else
          some []
      some (out ++ tail ++ ['\n'], none, [])
    | b :: rest' =>
      if b.span.covers_line lineNumber then do
        let (out2, nxt, rem) ← lineLoop lineNumber content b rest' remainderColumn
        some (out ++ out2, nxt, rem)
      else do
        let tail ←
          if remainderColumn < content.length then
            rustSlice content remainderColumn content.length
          else
            some []
        some (out ++ tail ++ ['\n'], some b, rest')

/-- Outer `for (line_number, content) in source` loop of `correct_lines`,
with the band-aid iterator state `(nxt, rest)` made explicit. -/
def correctLinesAux :
    Option BandAid → List BandAid → List (Nat × List Char) → Option (List Char)
  | _, _, [] => some []
  | none, rest, (_, content) :: lines => do
    let out ← correctLinesAux none rest lines
    some (content ++ '\n' :: out)
  | some bandaid, rest, (lineNumber, content) :: lines =>
    if ¬ bandaid.span.covers_line lineNumber then do
      let out ← correctLinesAux (some bandaid) rest lines
      some (content ++ '\n' :: out)
    else do
      let (out, nxt, rest') ← lineLoop lineNumber content bandaid rest 0
      let out2 ← correctLinesAux nxt rest' lines
      some (out ++ out2)

/-- `correct_lines` (`src/action/mod.rs`): apply the sorted band-aids to the
numbered source lines, writing each produced line followed by one `'\n'`. -/
def correct_lines (bandaids : List BandAid) (source : List (Nat × List Char)) :
    Option (List Char) :=
  match bandaids with
  | [] => correctLinesAux none [] source
  | b :: rest => correctLinesAux (some b) rest source

/-- The identity output of the patch engine: every input line followed by
exactly one newline. -/
def passthrough (source : List (Nat × List Char)) : List Char :=
  (source.map (fun l => l.2 ++ ['\n'])).flatten

/-- With no pending band-aid every line is passed through unchanged. -/
theorem correctLinesAux_none (rest : List BandAid) (source : List (Nat × List Char)) :
    correctLinesAux none rest source = some (passthrough source) := by
  induction source with
  | nil => simp [correctLinesAux, passthrough]
  | cons l ls ih =>
    obtain ⟨n, content⟩ := l
    simp [correctLinesAux, ih, passthrough, Option.bind]

/-- A pending band-aid that covers no line of the remaining source is never
applied and never dropped: every line passes through unchanged and the whole
remaining band-aid queue `rest` is ignored. -/
theorem correctLinesAux_stale (b : BandAid) (rest : List BandAid)
    (source : List (Nat × List Char))
    (h : ∀ l ∈ source, b.span.covers_line l.1 = false) :
    correctLinesAux (some b) rest source = some (passthrough source) := by
  induction source with
  | nil => simp [correctLinesAux, passthrough]
  | cons l ls ih =>
    obtain ⟨n, content⟩ := l
    have hb : b.span.covers_line n = false := h (n, content) (by simp)
    have ihs : correctLinesAux (some b) rest ls = some (passthrough ls) :=
      ih (fun l hl => h l (List.mem_cons_of_mem _ hl))
    simp [correctLinesAux, hb, ihs, passthrough, Option.bind]

/-- C6: applying zero `BandAid`s is the identity of the patch operation —
`correct_lines` writes each input line followed by exactly one `'\n'` and
changes nothing else. -/
theorem correct_lines_empty_is_identity (source : List (Nat × List Char)) :
    correct_lines [] source = some (passthrough source) := by
  simpa [correct_lines] using correctLinesAux_none [] source

/-- The three band-aids of the `replace_unicorns` fixture. -/
def unicornBandaids : List BandAid :=
  [⟨⟨2, ⟨7, 15⟩⟩, "banana icecream".toList⟩,
   ⟨⟨2, ⟨22, 28⟩⟩, "third".toList⟩,
   ⟨⟨2, ⟨29, 36⟩⟩, "day".toList⟩]

/-- Applying the three unicorn band-aids to line 2 rewrites it left-to-right
at the original column coordinates. -/
theorem unicornBandaids_mid (post : List (Nat × List Char)) :
    correctLinesAux (some ⟨⟨2, ⟨7, 15⟩⟩, "banana icecream".toList⟩)
        [⟨⟨2, ⟨22, 28⟩⟩, "third".toList⟩, ⟨⟨2, ⟨29, 36⟩⟩, "day".toList⟩]
        ((2, "I like unicorns every second Mondays.".toList) :: post) =
      some (("I like banana icecream every third day.".toList ++ ['\n']) ++
        passthrough post) := by
  have hloop : lineLoop 2 "I like unicorns every second Mondays.".toList
      ⟨⟨2, ⟨7, 15⟩⟩, "banana icecream".toList⟩
      [⟨⟨2, ⟨22, 28⟩⟩, "third".toList⟩, ⟨⟨2, ⟨29, 36⟩⟩, "day".toList⟩] 0 =
      some ("I like banana icecream every third day.".toList ++ ['\n'], none, []) := by
    decide
  simp only [correctLinesAux, Span.covers_line]
  rw [if_neg (by decide)]
  rw [hloop]
  simp [correctLinesAux_none, Option.bind]

/-- C5: with line 2 being the unicorn sentence and the three ascending
non-overlapping band-aids of the fixture, `correct_lines` rewrites line 2 to
the corrected sentence, applying same-line edits left-to-right at the
original column coordinates, and emits every other line byte-identical. -/
theorem correct_lines_replace_unicorns
    (pre post : List (Nat × List Char)) (hpre : ∀ l ∈ pre, l.1 ≠ 2) :
    correct_lines unicornBandaids
        (pre ++ (2, "I like unicorns every second Mondays.".toList) :: post) =
      some (passthrough pre ++
        ("I like banana icecream every third day.".toList ++ ['\n']) ++
        passthrough post) := by
  induction pre with
  | nil =>
    simpa [correct_lines, unicornBandaids, passthrough] using unicornBandaids_mid post
  | cons l ls ih =>
    obtain ⟨n, content⟩ := l
    have hn : n ≠ 2 := hpre (n, content) (by simp)
    have hcov : ¬ (Span.covers_line ⟨2, ⟨7, 15⟩⟩ n = true) := by
      simp [Span.covers_line]
      omega
    have ihs := ih (fun l hl => hpre l (List.mem_cons_of_mem _ hl))
    simp only [correct_lines, unicornBandaids] at ihs ⊢
    simp only [List.cons_append, correctLinesAux]
    rw [if_pos hcov]
    simp only [List.append_eq]
    rw [ihs]
    simp [passthrough, Option.bind]

/-- C5 witness: the exact `replace_unicorns` repository test. -/
theorem correct_lines_replace_unicorns_witness :
    correct_lines unicornBandaids
        [(1, [] ), (2, "I like unicorns every second Mondays.".toList), (3, [])] =
      some "\nI like banana icecream every third day.\n\n".toList := by
  have h := correct_lines_replace_unicorns [(1, [])] [(3, [])]
    (by intro l hl; simp at hl; simp [hl])
  simpa [passthrough] using h

/-- C1 counterexample: a band-aid for already-passed line 0 is pending while
lines 1 and 2 are processed; the in-contract band-aid on line 2 is *not*
applied (output is the unchanged text), although applying it alone would
change line 2. -/
theorem stale_bandaid_blocks_later_bandaids :
    correct_lines
        [⟨⟨0, ⟨0, 1⟩⟩, "X".toList⟩, ⟨⟨2, ⟨0, 1⟩⟩, "Y".toList⟩]
        [(1, "ab".toList), (2, "cd".toList)] = some "ab\ncd\n".toList ∧
    correct_lines [⟨⟨2, ⟨0, 1⟩⟩, "Y".toList⟩]
        [(1, "ab".toList), (2, "cd".toList)] = some "ab\nYd\n".toList ∧
    ("ab\ncd\n".toList : List Char) ≠ "ab\nYd\n".toList := by
  refine ⟨by decide, by decide, by decide⟩

/-- C1 (amended): a `BandAid` whose line has already been passed never causes
misplacement — every remaining line is emitted byte-identical — but it is not
dropped by cursor advancement: it stays pending, so the remaining in-contract
`BandAid`s on later lines are never applied either. -/
theorem stale_bandaid_no_misplacement (b : BandAid) (rest : List BandAid)
    (source : List (Nat × List Char))
    (h : ∀ l ∈ source, b.span.covers_line l.1 = false) :
    correct_lines (b :: rest) source = some (passthrough source) := by
  simpa [correct_lines] using correctLinesAux_stale b rest source h

/-- C1 amended-claim witness at a concrete input. -/
theorem stale_bandaid_no_misplacement_witness :
    correct_lines
        [⟨⟨0, ⟨0, 1⟩⟩, "X".toList⟩, ⟨⟨2, ⟨0, 1⟩⟩, "Y".toList⟩]
        [(1, "ab".toList), (3, "cd".toList)] =
      some (passthrough [(1, "ab".toList), (3, "cd".toList)]) :=
  stale_bandaid_no_misplacement _ _ _ (by decide)

/-! ## Tokenizer (`src/checker/mod.rs`) -/

/-- `str::char_indices` starting at byte offset `ofs`: each scalar character
paired with its byte offset, consecutive offsets differing by the character's
UTF-8 byte length. -/
def charIndicesFrom : Nat → List Char → List (Nat × Char)
  | _, [] => []
  | ofs, c :: cs => (ofs, c) :: charIndicesFrom (ofs + c.utf8Size) cs

/-- `s.char_indices()`. -/
def char_indices (s : List Char) : List (Nat × Char) :=
  charIndicesFrom 0 s

/-- The fixed punctuation blacklist of `tokenize`. -/
def blacklist : List Char :=
  "\";:,.?!#()\x7b\x7d[]-\n\r/`".toList

/-- The boundary predicate of `tokenize`: whitespace or a blacklisted
character ( `Char.isWhitespace` models `char::is_whitespace` on the ASCII
whitespace common to both). -/
def is_ignore_char (c : Char) : Bool :=
  c.isWhitespace || blacklist.contains c

/-- The forward scan of `tokenize`: state `(started, linear_start, acc)`;
a boundary character flushes the in-progress token `[linear_start, c_idx)`. -/
def tokenizeScan :
    List (Nat × Char) → Bool → Nat → List Range → Bool × Nat × List Range
  | [], started, linearStart, acc => (started, linearStart, acc)
  | (cIdx, c) :: rest, started, linearStart, acc =>
    if is_ignore_char c then
      tokenizeScan rest false linearStart
        (if started then acc ++ [⟨linearStart, cIdx⟩] else acc)
    else
      tokenizeScan rest true (if started then linearStart else cIdx) acc

/-- `tokenize` (`src/checker/mod.rs`): split into word ranges; at
end-of-input an in-progress token is flushed with exclusive end
`last_index + 1` (the source writes `idx + 1`, not `idx + utf8 length`). -/
def tokenize (s : List Char) : List Range :=
  let cis := char_indices s
  let res := tokenizeScan cis false 0 []
  if res.1 then
    match cis.getLast? with
    | some (idx, _) => res.2.2 ++ [⟨res.2.1, idx + 1⟩]
    | none => res.2.2
  else res.2.2

/-- C3: on the input `"é"` — a single 2-byte final character — `tokenize`
flushes the final token with exclusive end `0 + 1`, not
`0 + 'é'.utf8Size = 2`, so the emitted range does not cover the whole final
character; the well-documented intent (and the spec) require end `2`. -/
theorem tokenize_multibyte_flush_bug :
    tokenize "é".toList = [⟨0, 1⟩] ∧
    'é'.utf8Size = 2 ∧
    (⟨0, 1⟩ : Range) ≠ ⟨0, 0 + 'é'.utf8Size⟩ := by
  refine ⟨by decide, by decide, by decide⟩


/-- Every byte offset produced by `charIndicesFrom ofs` is at least `ofs`. -/
theorem charIndicesFrom_lb (s : List Char) :
    ∀ ofs, ∀ p ∈ charIndicesFrom ofs s, ofs ≤ p.1 := by
  induction s with
  | nil => intro ofs p hp; simp [charIndicesFrom] at hp
  | cons c cs ih =>
    intro ofs p hp
    simp only [charIndicesFrom, List.mem_cons] at hp
    rcases hp with rfl | hp'
    · exact Nat.le_refl _
    · have h1 := ih (ofs + c.utf8Size) p hp'
      have h2 := Char.utf8Size_pos c
      omega

/-- The byte offsets of `charIndicesFrom` are strictly increasing. -/
theorem charIndicesFrom_sorted (s : List Char) :
    ∀ ofs, List.Pairwise (fun a b : Nat × Char => a.1 < b.1) (charIndicesFrom ofs s) := by
  induction s with
  | nil => intro ofs; simp [charIndicesFrom]
  | cons c cs ih =>
    intro ofs
    simp only [charIndicesFrom]
    refine List.Pairwise.cons (fun p hp => ?_) (ih (ofs + c.utf8Size))
    have h1 := charIndicesFrom_lb cs (ofs + c.utf8Size) p hp
    have h2 := Char.utf8Size_pos c
    show ofs < p.1
    omega

/-- `getLast?` returns a member of the list. -/
theorem getLast?_mem_of_eq {α : Type} :
    ∀ {l : List α} {a : α}, l.getLast? = some a → a ∈ l := by
  intro l
  induction l with
  | nil => intro a h; simp at h
  | cons x t ih =>
    intro a h
    cases t with
    | nil => simp at h; simp [h]
    | cons y t' =>
      rw [List.getLast?_cons_cons] at h
      exact List.mem_cons_of_mem _ (ih h)

/-- In a list with strictly increasing first components, every first
component is bounded by the last element's. -/
theorem fst_le_getLast_fst :
    ∀ (l : List (Nat × Char)),
      List.Pairwise (fun a b : Nat × Char => a.1 < b.1) l →
      ∀ p ∈ l, ∀ q, l.getLast? = some q → p.1 ≤ q.1 := by
  intro l
  induction l with
  | nil => simp
  | cons x t ih =>
    intro hs p hp q hq
    cases t with
    | nil =>
      simp only [List.getLast?_singleton, Option.some.injEq] at hq
      simp only [List.mem_singleton] at hp
      subst hq; subst hp; exact Nat.le_refl _
    | cons y t' =>
      rw [List.getLast?_cons_cons] at hq
      rcases List.mem_cons.mp hp with rfl | hp'
      · have hqmem := getLast?_mem_of_eq hq
        have := (List.pairwise_cons.mp hs).1 q hqmem
        omega
      · exact ih (List.pairwise_cons.mp hs).2 p hp' q hq

/-- No character inside `r` (by byte offset) is a boundary character. -/
def boundaryFree (cis : List (Nat × Char)) (r : Range) : Prop :=
  ∀ p ∈ cis, r.start ≤ p.1 → p.1 < r.«end» → is_ignore_char p.2 = false

/-- Invariant of the forward scan of `tokenize`: the accumulated ranges are
non-empty, separated, boundary-free, and an in-progress token lies beyond
them and covers only non-boundary characters. -/
theorem tokenizeScan_inv (full : List (Nat × Char))
    (hsort : List.Pairwise (fun a b : Nat × Char => a.1 < b.1) full) :
    ∀ (rest done : List (Nat × Char)) (started : Bool) (ls : Nat)
      (acc : List Range),
    full = done ++ rest →
    (∀ r ∈ acc, r.start < r.«end») →
    List.Chain' (fun a b : Range => a.«end» ≤ b.start) acc →
    (∀ r ∈ acc, boundaryFree full r) →
    (∀ r ∈ acc, ∀ p ∈ rest, r.«end» ≤ p.1) →
    (started = true → ∀ r ∈ acc, r.«end» ≤ ls) →
    (started = true → ∀ p ∈ done, ls ≤ p.1 → is_ignore_char p.2 = false) →
    (started = true → ∃ p ∈ done, p.1 = ls) →
    (∀ r ∈ (tokenizeScan rest started ls acc).2.2, r.start < r.«end») ∧
    List.Chain' (fun a b : Range => a.«end» ≤ b.start)
      (tokenizeScan rest started ls acc).2.2 ∧
    (∀ r ∈ (tokenizeScan rest started ls acc).2.2, boundaryFree full r) ∧
    ((tokenizeScan rest started ls acc).1 = true →
      (∀ r ∈ (tokenizeScan rest started ls acc).2.2,
        r.«end» ≤ (tokenizeScan rest started ls acc).2.1) ∧
      (∀ p ∈ full, (tokenizeScan rest started ls acc).2.1 ≤ p.1 →
        is_ignore_char p.2 = false) ∧
      (∃ p ∈ full, p.1 = (tokenizeScan rest started ls acc).2.1)) := by
  intro rest
  induction rest with
  | nil =>
    intro done started ls acc hfull h1 h2 h3 _h4 h5 h6 h7
    have hdone : done = full := by rw [hfull, List.append_nil]
    refine ⟨h1, h2, h3, fun hst => ⟨h5 hst, ?_, ?_⟩⟩
    · rw [← hdone]; exact h6 hst
    · rw [← hdone]; exact h7 hst
  | cons pc rest' ih =>
    intro done started ls acc hfull h1 h2 h3 h4 h5 h6 h7
    obtain ⟨i, c⟩ := pc
    have hpa := List.pairwise_append.mp (hfull ▸ hsort)
    have hdi : ∀ p ∈ done, p.1 < i :=
      fun p hp => hpa.2.2 p hp (i, c) (List.mem_cons_self _ _)
    have hir : ∀ p ∈ rest', i < p.1 := (List.pairwise_cons.mp hpa.2.1).1
    have hfull' : full = (done ++ [(i, c)]) ++ rest' := by
      rw [hfull]; simp
    by_cases hig : is_ignore_char c = true
    · rw [show tokenizeScan ((i, c) :: rest') started ls acc =
          tokenizeScan rest' false ls
            (if started then acc ++ [⟨ls, i⟩] else acc) from by
        simp [tokenizeScan, hig]]
      cases started with
      | false =>
        simp only [Bool.false_eq_true, if_false]
        exact ih (done ++ [(i, c)]) false ls acc hfull' h1 h2 h3
          (fun r hr p hp => h4 r hr p (List.mem_cons_of_mem _ hp))
          (fun h => nomatch h) (fun h => nomatch h) (fun h => nomatch h)
      | true =>
        simp only [if_true]
        obtain ⟨pw, hpw, hpweq⟩ := h7 rfl
        have hlsi : ls < i := hpweq ▸ hdi pw hpw
        refine ih (done ++ [(i, c)]) false ls (acc ++ [⟨ls, i⟩]) hfull'
          ?_ ?_ ?_ ?_ (fun h => nomatch h) (fun h => nomatch h)
          (fun h => nomatch h)
        · intro r hr
          rcases List.mem_append.mp hr with hr' | hr'
          · exact h1 r hr'
          · simp only [List.mem_singleton] at hr'
            subst hr'
            exact hlsi
        · rw [List.chain'_append]
          refine ⟨h2, List.chain'_singleton _, ?_⟩
          intro x hx y hy
          simp only [List.head?_cons, Option.mem_def, Option.some.injEq] at hy
          subst hy
          exact h5 rfl x (getLast?_mem_of_eq hx)
        · intro r hr
          rcases List.mem_append.mp hr with hr' | hr'
          · exact h3 r hr'
          · simp only [List.mem_singleton] at hr'
            subst hr'
            intro p hp hple hplt
            rw [hfull] at hp
            rcases List.mem_append.mp hp with hp' | hp'
            · exact h6 rfl p hp' hple
            · rcases List.mem_cons.mp hp' with rfl | hp2
              · exact absurd hplt (by simp)
              · have h9 := hir p hp2
                refine absurd hplt ?_
                show ¬ p.1 < i
                omega
        · intro r hr p hp
          rcases List.mem_append.mp hr with hr' | hr'
          · exact h4 r hr' p (List.mem_cons_of_mem _ hp)
          · simp only [List.mem_singleton] at hr'
            subst hr'
            have := hir p hp
            show i ≤ p.1
            omega
    · have hig' : is_ignore_char c = false := by
        cases h : is_ignore_char c
        · rfl
        · exact absurd h hig
      rw [show tokenizeScan ((i, c) :: rest') started ls acc =
          tokenizeScan rest' true (if started then ls else i) acc from by
        simp [tokenizeScan, hig']]
      cases started with
      | true =>
        simp only [if_true]
        refine ih (done ++ [(i, c)]) true ls acc hfull' h1 h2 h3
          (fun r hr p hp => h4 r hr p (List.mem_cons_of_mem _ hp))
          (fun _ => h5 rfl) ?_ ?_
        · intro _ p hp hple
          rcases List.mem_append.mp hp with hp' | hp'
          · exact h6 rfl p hp' hple
          · simp only [List.mem_singleton] at hp'
            subst hp'
            exact hig'
        · intro _
          obtain ⟨pw, hpw, hpweq⟩ := h7 rfl
          exact ⟨pw, List.mem_append_left _ hpw, hpweq⟩
      | false =>
        simp only [Bool.false_eq_true, if_false]
        refine ih (done ++ [(i, c)]) true i acc hfull' h1 h2 h3
          (fun r hr p hp => h4 r hr p (List.mem_cons_of_mem _ hp))
          ?_ ?_ ?_
        · intro _ r hr
          exact h4 r hr (i, c) (List.mem_cons_self _ _)
        · intro _ p hp hple
          rcases List.mem_append.mp hp with hp' | hp'
          · exact absurd hple (by have := hdi p hp'; omega)
          · simp only [List.mem_singleton] at hp'
            subst hp'
            exact hig'
        · intro _
          exact ⟨(i, c), List.mem_append_right _ (List.mem_singleton_self _), rfl⟩


/-- A non-empty list has a `getLast?`. -/
theorem getLast?_isSome_of_ne_nil {α : Type} :
    ∀ (l : List α), l ≠ [] → ∃ a, l.getLast? = some a := by
  intro l
  induction l with
  | nil => intro h; exact absurd rfl h
  | cons x t ih =>
    intro _
    cases t with
    | nil => exact ⟨x, rfl⟩
    | cons y t' =>
      obtain ⟨a, ha⟩ := ih (by simp)
      exact ⟨a, by rw [List.getLast?_cons_cons]; exact ha⟩

/-- Separation propagates from the head across a separated chain of
non-empty ranges. -/
theorem chain_sep_head_all :
    ∀ (t : List Range) (x : Range),
      (∀ r ∈ t, r.start < r.«end») →
      List.Chain' (fun a b : Range => a.«end» ≤ b.start) t →
      (∀ b ∈ t.head?, x.«end» ≤ b.start) →
      ∀ b ∈ t, x.«end» ≤ b.start := by
  intro t
  induction t with
  | nil => simp
  | cons c t' ih =>
    intro x hne hch hhead b hb
    have hxc : x.«end» ≤ c.start := hhead c rfl
    rcases List.mem_cons.mp hb with rfl | hb'
    · exact hxc
    · have hcc := hne c (List.mem_cons_self _ _)
      have hch' := List.chain'_cons'.mp hch
      refine ih x (fun r hr => hne r (List.mem_cons_of_mem _ hr)) hch'.2 ?_ b hb'
      intro y hy
      have := hch'.1 y hy
      omega

/-- A separated chain of non-empty ranges is pairwise separated. -/
theorem chain_sep_pairwise :
    ∀ (l : List Range),
      (∀ r ∈ l, r.start < r.«end») →
      List.Chain' (fun a b : Range => a.«end» ≤ b.start) l →
      List.Pairwise (fun a b : Range => a.«end» ≤ b.start) l := by
  intro l
  induction l with
  | nil => intro _ _; exact List.Pairwise.nil
  | cons a t ih =>
    intro hne hch
    have hch' := List.chain'_cons'.mp hch
    refine List.Pairwise.cons ?_
      (ih (fun r hr => hne r (List.mem_cons_of_mem _ hr)) hch'.2)
    exact chain_sep_head_all t a
      (fun r hr => hne r (List.mem_cons_of_mem _ hr)) hch'.2 hch'.1

/-- C4: for every input, `tokenize` emits non-empty ranges, pairwise
separated (hence strictly ascending and non-overlapping), none of which
contains a boundary character; on the fixture
`"With markdown removed, for sure."` the emitted ranges denote exactly the
words `["With","markdown","removed","for","sure"]` in order. -/
theorem tokenize_sound (s : List Char) :
    (∀ r ∈ tokenize s, r.start < r.«end») ∧
    List.Pairwise (fun a b : Range => a.«end» ≤ b.start) (tokenize s) ∧
    (∀ r ∈ tokenize s, ∀ p ∈ char_indices s,
      r.start ≤ p.1 → p.1 < r.«end» → is_ignore_char p.2 = false) ∧
    tokenize "With markdown removed, for sure.".toList =
      [⟨0, 4⟩, ⟨5, 13⟩, ⟨14, 21⟩, ⟨23, 26⟩, ⟨27, 31⟩] ∧
    ([⟨0, 4⟩, ⟨5, 13⟩, ⟨14, 21⟩, ⟨23, 26⟩, ⟨27, 31⟩] : List Range).map
        (listSlice "With markdown removed, for sure.".toList) =
      ["With".toList, "markdown".toList, "removed".toList, "for".toList,
       "sure".toList] := by
  have hsort := charIndicesFrom_sorted s 0
  have base := tokenizeScan_inv (char_indices s) hsort (char_indices s) []
    false 0 [] rfl (by simp) (by simp) (by simp) (by simp)
    (fun h => nomatch h) (fun h => nomatch h) (fun h => nomatch h)
  obtain ⟨hb1, hb2, hb3, hb4⟩ := base
  have hmain :
      (∀ r ∈ tokenize s, r.start < r.«end») ∧
      List.Chain' (fun a b : Range => a.«end» ≤ b.start) (tokenize s) ∧
      (∀ r ∈ tokenize s, ∀ p ∈ char_indices s,
        r.start ≤ p.1 → p.1 < r.«end» → is_ignore_char p.2 = false) := by
    by_cases hst : (tokenizeScan (char_indices s) false 0 []).1 = true
    · obtain ⟨hend, hbf, p, hpmem, hpeq⟩ := hb4 hst
      cases hlast : (char_indices s).getLast? with
      | none =>
        exfalso
        have hne : char_indices s ≠ [] := by
          intro h
          rw [h] at hpmem
          simp at hpmem
        obtain ⟨a, ha⟩ := getLast?_isSome_of_ne_nil _ hne
        rw [ha] at hlast
        exact Option.noConfusion hlast
      | some q =>
        obtain ⟨idx, cq⟩ := q
        have hple : p.1 ≤ idx :=
          fst_le_getLast_fst (char_indices s) hsort p hpmem (idx, cq) hlast
        have htok : tokenize s =
            (tokenizeScan (char_indices s) false 0 []).2.2 ++
              [⟨(tokenizeScan (char_indices s) false 0 []).2.1, idx + 1⟩] := by
          simp only [tokenize]
          rw [if_pos hst, hlast]
        rw [htok]
        have hlsidx : (tokenizeScan (char_indices s) false 0 []).2.1 ≤ idx := by
          rw [← hpeq]; exact hple
        refine ⟨?_, ?_, ?_⟩
        · intro r hr
          rcases List.mem_append.mp hr with hr' | hr'
          · exact hb1 r hr'
          · simp only [List.mem_singleton] at hr'
            subst hr'
            show (tokenizeScan (char_indices s) false 0 []).2.1 < idx + 1
            omega
        · rw [List.chain'_append]
          refine ⟨hb2, List.chain'_singleton _, ?_⟩
          intro x hx y hy
          simp only [List.head?_cons, Option.mem_def, Option.some.injEq] at hy
          subst hy
          exact hend x (getLast?_mem_of_eq hx)
        · intro r hr pp hpp hple2 hplt2
          rcases List.mem_append.mp hr with hr' | hr'
          · exact hb3 r hr' pp hpp hple2 hplt2
          · simp only [List.mem_singleton] at hr'
            subst hr'
            exact hbf pp hpp hple2
    · have htok : tokenize s = (tokenizeScan (char_indices s) false 0 []).2.2 := by
        simp only [tokenize]
        rw [if_neg hst]
      rw [htok]
      exact ⟨hb1, hb2, hb3⟩
  exact ⟨hmain.1, chain_sep_pairwise _ hmain.1 hmain.2.1, hmain.2.2,
    by decide, by decide⟩

/-- C4 witness: the theorem applied to the concrete input `"ab"`. -/
theorem tokenize_sound_witness :
    ((⟨0, 2⟩ : Range).start < (⟨0, 2⟩ : Range).«end») ∧
      is_ignore_char 'a' = false :=
  ⟨(tokenize_sound "ab".toList).1 ⟨0, 2⟩ (by decide),
   (tokenize_sound "ab".toList).2.2.1 ⟨0, 2⟩ (by decide) (0, 'a') (by decide)
     (by decide) (by decide)⟩


/-! ## Suggestion model, `Action::check`, and the interactive controller -/

/-- Modelled from the spec: a `Suggestion` (from the library crate, missing
from `src/`) is one detected issue: a `Span` plus an ordered, possibly-empty
list of candidate replacement strings. -/
structure Suggestion where
  span : Span
  replacements : List (List Char)
deriving DecidableEq, Repr

/-- File paths, modelled as plain strings. -/
abbrev Path := String

/-- `Action::check` (`src/action/mod.rs`): count the suggestions over all
paths while printing them; return an error reporting the count when it is
positive, `Ok(())` otherwise. -/
def Action.check (suggestions_per_path : List (Path × List Suggestion)) :
    Except String Unit :=
  let count := suggestions_per_path.foldl (fun acc kv => acc + kv.2.length) 0
  if count > 0 then
    Except.error ("Found " ++ toString count ++ " potential spelling mistakes")
  else
    Except.ok ()

/-- The running count of `Action::check` is the sum of the per-path
suggestion counts. -/
theorem foldl_add_length (s : List (Path × List Suggestion)) :
    ∀ n, s.foldl (fun acc kv => acc + kv.2.length) n =
      n + (s.map (fun kv => kv.2.length)).sum := by
  induction s with
  | nil => intro n; simp
  | cons kv t ih =>
    intro n
    simp [List.foldl_cons, ih, Nat.add_assoc]

/-- C7: `Action::check` returns `Ok` iff the total number of suggestions
summed over all paths is zero; when it is positive it returns an error that
reports the count. -/
theorem check_errors_iff_count_positive (s : List (Path × List Suggestion)) :
    (Action.check s = Except.ok () ↔ (s.map (fun kv => kv.2.length)).sum = 0) ∧
    (0 < (s.map (fun kv => kv.2.length)).sum →
      Action.check s = Except.error
        ("Found " ++ toString ((s.map (fun kv => kv.2.length)).sum) ++
          " potential spelling mistakes")) := by
  have hc : Action.check s =
      if 0 < (s.map (fun kv => kv.2.length)).sum then
        Except.error ("Found " ++ toString ((s.map (fun kv => kv.2.length)).sum) ++
          " potential spelling mistakes")
      else Except.ok () := by
    simp only [Action.check, foldl_add_length s 0, Nat.zero_add, gt_iff_lt]
  constructor
  · by_cases h : 0 < (s.map (fun kv => kv.2.length)).sum
    · rw [hc, if_pos h]
      constructor
      · intro habs; exact Except.noConfusion habs
      · intro h0; omega
    · rw [hc, if_neg h]
      constructor
      · intro _; omega
      · intro _; rfl
  · intro h
    rw [hc, if_pos h]

/-- C7 witness: one suggestion yields the counting error. -/
theorem check_errors_witness :
    Action.check [("a.rs", [⟨⟨1, ⟨0, 1⟩⟩, []⟩])] =
      Except.error
        ("Found " ++
          toString (([("a.rs", [(⟨⟨1, ⟨0, 1⟩⟩, []⟩ : Suggestion)])].map
            (fun kv => kv.2.length)).sum) ++
          " potential spelling mistakes") :=
  (check_errors_iff_count_positive _).2 (by decide)

/-- Selection state of the interactive controller
(`src/action/interactive.rs`): the suggestion operated upon, the scratch
buffer for a custom replacement, the highlighted index and the slot count. -/
structure State where
  suggestion : Suggestion
  custom_replacement : List Char
  pick_idx : Nat
  n_items : Nat
deriving DecidableEq, Repr

/-- `From<&Suggestion> for State`: highlight slot 0 of
`replacements.len() + 1` slots (the extra one is custom entry). -/
def State.fromSuggestion (s : Suggestion) : State :=
  ⟨s, [], 0, s.replacements.length + 1⟩

/-- `State::select_next`: wraparound increment (`rem_euclid` on `usize`
is `%`). -/
def State.select_next (st : State) : State :=
  { st with pick_idx := (st.pick_idx + 1) % st.n_items }

/-- `State::select_previous`: wraparound decrement. -/
def State.select_previous (st : State) : State :=
  { st with pick_idx := (st.pick_idx + st.n_items - 1) % st.n_items }

/-- `State::select_custom`: jump to the last (custom-entry) slot. -/
def State.select_custom (st : State) : State :=
  { st with pick_idx := st.n_items - 1 }

/-- C10: a freshly constructed `State` satisfies `pick_idx < n_items`, and
each of `select_next`, `select_previous`, `select_custom` preserves that
invariant, so the highlighted slot always denotes a candidate or the final
custom-entry slot. -/
theorem state_pick_idx_invariant (sugg : Suggestion) (st : State) :
    (State.fromSuggestion sugg).pick_idx < (State.fromSuggestion sugg).n_items ∧
    (st.pick_idx < st.n_items →
      st.select_next.pick_idx < st.select_next.n_items ∧
      st.select_previous.pick_idx < st.select_previous.n_items ∧
      st.select_custom.pick_idx < st.select_custom.n_items) := by
  constructor
  · simp [State.fromSuggestion]
  · intro h
    have hn : 0 < st.n_items := Nat.lt_of_le_of_lt (Nat.zero_le _) h
    refine ⟨?_, ?_, ?_⟩
    · exact Nat.mod_lt _ hn
    · exact Nat.mod_lt _ hn
    · simpa [State.select_custom] using Nat.sub_lt hn Nat.one_pos

/-- C10 witness: the invariant at a concrete one-candidate state. -/
theorem state_pick_idx_invariant_witness :
    ((⟨⟨⟨1, ⟨0, 1⟩⟩, [['a']]⟩, [], 1, 2⟩ : State).select_next.pick_idx <
      (⟨⟨⟨1, ⟨0, 1⟩⟩, [['a']]⟩, [], 1, 2⟩ : State).select_next.n_items) ∧
    ((⟨⟨⟨1, ⟨0, 1⟩⟩, [['a']]⟩, [], 1, 2⟩ : State).select_previous.pick_idx <
      (⟨⟨⟨1, ⟨0, 1⟩⟩, [['a']]⟩, [], 1, 2⟩ : State).select_previous.n_items) ∧
    ((⟨⟨⟨1, ⟨0, 1⟩⟩, [['a']]⟩, [], 1, 2⟩ : State).select_custom.pick_idx <
      (⟨⟨⟨1, ⟨0, 1⟩⟩, [['a']]⟩, [], 1, 2⟩ : State).select_custom.n_items) :=
  (state_pick_idx_invariant ⟨⟨1, ⟨0, 1⟩⟩, [['a']]⟩ _).2 (by decide)

/-- The pick outcomes returned by `user_input`
(`src/action/interactive.rs`). -/
inductive Pick where
  | Replacement : BandAid → Pick
  | Skip : Pick
  | Previous : Pick
  | Help : Pick
  | SkipFile : Pick
  | Quit : Pick
  | Nop : Pick
deriving DecidableEq, Repr

/-- The sequence of decisions the terminal session produces, one per prompt:
stands for the successive return values of `user_input`. -/
abbrev Script := List Pick

/-- `UserPicked`: ordered map from path to the approved band-aids. -/
structure UserPicked where
  bandaids : List (Path × List BandAid)
deriving DecidableEq, Repr

/-- `UserPicked::add_bandaid`: `entry(path).or_insert(vec).push(fix)` —
append to the existing entry in place, else insert a new entry at the end. -/
def UserPicked.add_bandaid (u : UserPicked) (path : Path) (fix : BandAid) :
    UserPicked :=
  if u.bandaids.any (fun kv => kv.1 == path) then
    ⟨u.bandaids.map (fun kv =>
      if kv.1 == path then (kv.1, kv.2 ++ [fix]) else kv)⟩
  else
    ⟨u.bandaids ++ [(path, [fix])]⟩

/-- The `while pick == Pick::Help` re-prompt loop: consume script entries
until the first non-help pick; `none` models blocking forever on input. -/
def resolveHelp : Script → Option (Pick × Script)
  | [] => none
  | p :: rest => if p = Pick.Help then resolveHelp rest else some (p, rest)

/-- The per-file suggestion loop of `select_interactive`: skip suggestions
without replacements, obtain one non-help pick per remaining suggestion and
dispatch it. Returns the picks, the remaining script and whether the session
was quit; `none` models an exhausted script (blocked prompt) or the
`unimplemented!` panic on `Previous` and the `unreachable!` on `Help`. -/
def fileLoop (path : Path) :
    List Suggestion → Script → UserPicked → Option (UserPicked × Script × Bool)
  | [], script, picked => some (picked, script, false)
  | sugg :: rest, script, picked =>
    if sugg.replacements.isEmpty then
      fileLoop path rest script picked
    else
      match resolveHelp script with
      | none => none
      | some (pick, script') =>
        match pick with
        | Pick.Quit => some (picked, script', true)
        | Pick.SkipFile => some (picked, script', false)
        | Pick.Previous => none
        | Pick.Help => none
        | Pick.Replacement b =>
          fileLoop path rest script' (picked.add_bandaid path b)
        | _ => fileLoop path rest script' picked

/-- `UserPicked::select_interactive` (`src/action/interactive.rs`): iterate
the files in collection order, threading the accumulated picks; `Quit`
stops the whole session returning everything accumulated so far. -/
def select_interactive :
    List (Path × List Suggestion) → Script → UserPicked → Option UserPicked
  | [], _, picked => some picked
  | (path, suggestions) :: files, script, picked =>
    match fileLoop path suggestions script picked with
    | none => none
    | some (picked2, _, true) => some picked2
    | some (picked2, script2, false) => select_interactive files script2 picked2

/-- C8: whenever the next decision is `Quit` (after any number of help
re-prompts) while suggestion `sugg` is in progress, `select_interactive`
returns exactly the `BandAid`s accumulated before the quit — `picked`, which
carries the partial results of previously completed files — recording
nothing for `sugg` and ignoring all remaining suggestions and files. -/
theorem select_interactive_quit (path : Path) (sugg : Suggestion)
    (rest : List Suggestion) (files : List (Path × List Suggestion))
    (script script2 : Script) (picked : UserPicked)
    (hrepl : sugg.replacements ≠ [])
    (hq : resolveHelp script = some (Pick.Quit, script2)) :
    select_interactive ((path, sugg :: rest) :: files) script picked =
      some picked := by
  have hne : sugg.replacements.isEmpty = false := by
    cases h : sugg.replacements with
    | nil => exact absurd h hrepl
    | cons a t => rfl
  simp [select_interactive, fileLoop, hne, hq]

/-- C8 witness: a help re-prompt then quit, with one band-aid already
accumulated from a previously completed file. -/
theorem select_interactive_quit_witness :
    select_interactive
        [("f.rs", [⟨⟨1, ⟨0, 1⟩⟩, [['a']]⟩])]
        [Pick.Help, Pick.Quit]
        ⟨[("done.rs", [⟨⟨1, ⟨0, 1⟩⟩, ['x']⟩])]⟩ =
      some ⟨[("done.rs", [⟨⟨1, ⟨0, 1⟩⟩, ['x']⟩])]⟩ :=
  select_interactive_quit "f.rs" ⟨⟨1, ⟨0, 1⟩⟩, [['a']]⟩ [] []
    [Pick.Help, Pick.Quit] [] ⟨[("done.rs", [⟨⟨1, ⟨0, 1⟩⟩, ['x']⟩])]⟩
    (by decide) (by decide)


/-! ## Markdown overlay reverse lookup (`src/markdown.rs`) -/

/-- One fold step of `PlainOverlay::linear_range_to_spans`: shift the query
by the entry's offset, clamp to the raw range's end, and resolve through the
delegated source-span resolver unless the clamped range is empty or
inverted (then it is logged and dropped). `none` models the `usize`
underflow panics and the `assert_eq!` offset-consistency failure. -/
def lookupStep {β : Type} (resolve : Range → List β) (plain_range : Range)
    (acc : List β) (entry : Range × Range) : Option (List β) :=
  let p := entry.1
  let r := entry.2
  if r.start < p.start then none
  else
    let offset := r.start - p.start
    if r.«end» < p.«end» then none
    else if r.«end» - p.«end» ≠ offset then none
    else
      let extracted : Range :=
        ⟨plain_range.start + offset, min r.«end» (plain_range.«end» + offset)⟩
      if extracted.start < extracted.«end» then some (acc ++ resolve extracted)
      else some acc

/-- The mapping entries selected by strict containment of the query. -/
def selectedEntries (mapping : List (Range × Range)) (plain_range : Range) :
    List (Range × Range) :=
  mapping.filter (fun e =>
    decide (e.1.start ≤ plain_range.start ∧ plain_range.«end» ≤ e.1.«end»))

/-- The fold of `linear_range_to_spans` over the selected entries. -/
def lookupFold {β : Type} (resolve : Range → List β) (plain_range : Range) :
    List (Range × Range) → List β → Option (List β)
  | [], acc => some acc
  | e :: t, acc =>
    match lookupStep resolve plain_range acc e with
    | none => none
    | some acc2 => lookupFold resolve plain_range t acc2

/-- `PlainOverlay::linear_range_to_spans`: filter the mapping by containment
and fold the per-entry translation, concatenating resolver results. -/
def linear_range_to_spans {β : Type} (mapping : List (Range × Range))
    (resolve : Range → List β) (plain_range : Range) : Option (List β) :=
  lookupFold resolve plain_range (selectedEntries mapping plain_range) []

/-- The contribution of one selected entry: the resolver's spans, or nothing
when the shifted-and-clamped range is empty or inverted. -/
def entrySpans {β : Type} (resolve : Range → List β) (plain_range : Range)
    (e : Range × Range) : List β :=
  let offset := e.2.start - e.1.start
  let extracted : Range :=
    ⟨plain_range.start + offset, min e.2.«end» (plain_range.«end» + offset)⟩
  if extracted.start < extracted.«end» then resolve extracted else []

/-- Offset-consistency of a mapping entry (the overlay construction
invariant the `assert_eq!` checks). -/
def entryConsistent (e : Range × Range) : Prop :=
  e.1.start ≤ e.2.start ∧ e.1.«end» ≤ e.2.«end» ∧
    e.2.start - e.1.start = e.2.«end» - e.1.«end»

instance (e : Range × Range) : Decidable (entryConsistent e) := by
  unfold entryConsistent
  infer_instance

/-- The fold never fails on consistent entries and appends each entry's
contribution in order. -/
theorem lookupFold_spec {β : Type} (resolve : Range → List β)
    (plain_range : Range) :
    ∀ (l : List (Range × Range)), (∀ e ∈ l, entryConsistent e) →
      ∀ acc, lookupFold resolve plain_range l acc =
        some (acc ++ (l.map (entrySpans resolve plain_range)).flatten) := by
  intro l
  induction l with
  | nil => intro _ acc; simp [lookupFold]
  | cons e t ih =>
    intro hcons acc
    obtain ⟨h1, h2, h3⟩ := hcons e (List.mem_cons_self _ _)
    have hstep : lookupStep resolve plain_range acc e =
        some (acc ++ entrySpans resolve plain_range e) := by
      simp only [lookupStep, entrySpans]
      rw [if_neg (by omega), if_neg (by omega), if_neg (by omega)]
      by_cases hne : plain_range.start + (e.2.start - e.1.start) <
          min e.2.«end» (plain_range.«end» + (e.2.start - e.1.start))
      · rw [if_pos hne, if_pos hne]
      · rw [if_neg hne, if_neg hne, List.append_nil]
    simp only [lookupFold, hstep]
    rw [ih (fun e2 he2 => hcons e2 (List.mem_cons_of_mem _ he2))]
    simp

/-- C9: on a mapping whose containment-selected entries are offset-consistent,
`linear_range_to_spans` never aborts: every selected entry whose
shifted-and-clamped raw range is empty or inverted contributes no spans, and
the spans of the other selected entries are returned in mapping order. -/
theorem linear_range_to_spans_drops_degenerate {β : Type}
    (mapping : List (Range × Range)) (resolve : Range → List β)
    (plain_range : Range)
    (hcons : ∀ e ∈ selectedEntries mapping plain_range, entryConsistent e) :
    linear_range_to_spans mapping resolve plain_range =
      some (((selectedEntries mapping plain_range).map
        (entrySpans resolve plain_range)).flatten) := by
  have h := lookupFold_spec resolve plain_range
    (selectedEntries mapping plain_range) hcons []
  simpa [linear_range_to_spans] using h

/-- C9 witness: the query `6..6` is contained in two consistent entries; both
clamped translations are empty, are dropped, and the lookup still succeeds
with the concatenation (here empty) of the remaining contributions. -/
theorem linear_range_to_spans_drops_degenerate_witness :
    linear_range_to_spans
        [(⟨0, 10⟩, ⟨100, 110⟩), (⟨5, 12⟩, ⟨200, 207⟩), (⟨0, 12⟩, ⟨300, 312⟩)]
        (fun r => [r]) ⟨6, 6⟩ = some [] :=
  (linear_range_to_spans_drops_degenerate _ (fun r => [r]) ⟨6, 6⟩
    (by decide)).trans (by decide)


/-! ## Markdown overlay extraction (`src/markdown.rs`) -/

/-- The `pulldown_cmark` tags distinguished by
`extract_plain_with_mapping`: link and image ends carry their title string;
other tags matter only by kind. -/
inductive MdTag where
  | Link : List Char → MdTag
  | Image : List Char → MdTag
  | Heading : MdTag
  | CodeBlock : MdTag
  | Paragraph : MdTag
  | Other : MdTag
deriving DecidableEq, Repr

/-- The `pulldown_cmark` events; each is paired at use-site with the raw
offset range provided by `into_offset_iter`. -/
inductive MdEvent where
  | Start : MdTag → MdEvent
  | End : MdTag → MdEvent
  | Text : List Char → MdEvent
  | Code : MdEvent
  | Html : MdEvent
  | FootnoteReference : MdEvent
  | SoftBreak : MdEvent
  | HardBreak : MdEvent
  | Rule : MdEvent
  | TaskListMarker : MdEvent
deriving DecidableEq, Repr

/-- `IndexMap::insert`: replace the value in place when the key is already
present, else append the pair at the end. -/
def imInsert (mapping : List (Range × Range)) (k v : Range) :
    List (Range × Range) :=
  if mapping.any (fun kv => kv.1 == k) then
    mapping.map (fun kv => if kv.1 == k then (kv.1, v) else kv)
  else
    mapping ++ [(k, v)]

/-- `PlainOverlay::track`: record the mapping entry
`(plain.len() .. plain.len() + s.len()) → markdown` and append `s` to the
plain buffer. -/
def track (s : List Char) (markdown : Range) (plain : List Char)
    (mapping : List (Range × Range)) : List Char × List (Range × Range) :=
  (plain ++ s,
   imInsert mapping ⟨plain.length, plain.length + s.length⟩ markdown)

/-- The event walk of `extract_plain_with_mapping`, with the `code_block`
flag threaded: text and link/image titles are tracked (text only outside
code blocks), structural events insert synthetic newlines without a mapping
entry, everything else is dropped. -/
def extractGo : List (MdEvent × Range) → Bool → List Char →
    List (Range × Range) → List Char × List (Range × Range)
  | [], _, plain, mapping => (plain, mapping)
  | (ev, offset) :: events, code_block, plain, mapping =>
    match ev with
    | MdEvent.Start tag =>
      match tag with
      | MdTag.CodeBlock => extractGo events true plain mapping
      | _ => extractGo events code_block plain mapping
    | MdEvent.End tag =>
      match tag with
      | MdTag.Link title =>
        let pm := track title offset plain mapping
        extractGo events code_block pm.1 pm.2
      | MdTag.Image title =>
        let pm := track title offset plain mapping
        extractGo events code_block pm.1 pm.2
      | MdTag.Heading =>
        extractGo events code_block (plain ++ List.replicate 2 '\n') mapping
      | MdTag.CodeBlock => extractGo events false plain mapping
      | MdTag.Paragraph =>
        extractGo events code_block (plain ++ List.replicate 2 '\n') mapping
      | MdTag.Other => extractGo events code_block plain mapping
    | MdEvent.Text s =>
      if code_block then extractGo events code_block plain mapping
      else
        let pm := track s offset plain mapping
        extractGo events code_block pm.1 pm.2
    | MdEvent.Code => extractGo events code_block plain mapping
    | MdEvent.Html => extractGo events code_block plain mapping
    | MdEvent.FootnoteReference => extractGo events code_block plain mapping
    | MdEvent.SoftBreak =>
      extractGo events code_block (plain ++ List.replicate 1 '\n') mapping
    | MdEvent.HardBreak =>
      extractGo events code_block (plain ++ List.replicate 2 '\n') mapping
    | MdEvent.Rule =>
      extractGo events code_block (plain ++ List.replicate 1 '\n') mapping
    | MdEvent.TaskListMarker => extractGo events code_block plain mapping

/-- `plain.chars().rev().take_while(|x| *x == '\n').count()`. -/
def trailingNewlines (plain : List Char) : Nat :=
  (plain.reverse.takeWhile (fun c => c == '\n')).length

/-- `IndexMap::pop`: remove and return the last entry. -/
def imPop (mapping : List (Range × Range)) :
    Option ((Range × Range) × List (Range × Range)) :=
  match mapping.getLast? with
  | none => none
  | some e => some (e, mapping.dropLast)

/-- `PlainOverlay::extract_plain_with_mapping` over a parsed event stream:
walk the events, trim trailing synthetic newlines, and clamp the last
mapping entry to the shortened buffer. `none` models the
`assert!(plain_range.start <= plain_range.end)` panic. -/
def extract_plain_with_mapping (events : List (MdEvent × Range)) :
    Option (List Char × List (Range × Range)) :=
  let pm := extractGo events false [] []
  let plain := pm.1
  let tn := trailingNewlines plain
  let plain2 := if tn ≤ plain.length then plain.take (plain.length - tn) else plain
  match imPop pm.2 with
  | none => some (plain2, pm.2)
  | some (e, mapping2) =>
    let prEnd := if e.1.«end» > plain2.length then plain2.length else e.1.«end»
    if e.1.start ≤ prEnd then
      some (plain2, imInsert mapping2 ⟨e.1.start, prEnd⟩ e.2)
    else none

/-- The event stream `pulldown_cmark` produces for the markdown
`[t](u "ti")`: the link's end event carries the title `"ti"` and the offset
range of the whole link construct. -/
def linkTitleEvents : List (MdEvent × Range) :=
  [(MdEvent.Start MdTag.Paragraph, ⟨0, 11⟩),
   (MdEvent.Start (MdTag.Link "ti".toList), ⟨0, 11⟩),
   (MdEvent.Text "t".toList, ⟨1, 2⟩),
   (MdEvent.End (MdTag.Link "ti".toList), ⟨0, 11⟩),
   (MdEvent.End MdTag.Paragraph, ⟨0, 11⟩)]

/-- C2 counterexample: on the overlay produced for `[t](u "ti")` (whose only
`Text` event is a verbatim slice of the raw input), the mapping entry
produced for the link title maps the 2-byte plain range `1..3` to the
11-byte raw range `0..11` of the whole link, violating both the equal-length
and the byte-for-byte invariants. -/
theorem overlay_link_title_breaks_roundtrip :
    extract_plain_with_mapping linkTitleEvents =
      some ("tti".toList, [(⟨0, 1⟩, ⟨1, 2⟩), (⟨1, 3⟩, ⟨0, 11⟩)]) ∧
    listSlice "[t](u \"ti\")".toList ⟨1, 2⟩ = "t".toList ∧
    ¬ ((3 : Nat) - 1 = 11 - 0) ∧
    listSlice "tti".toList ⟨1, 3⟩ ≠ listSlice "[t](u \"ti\")".toList ⟨0, 11⟩ := by
  refine ⟨by decide, by decide, by decide, by decide⟩

/-- Slices that end inside the left part are stable under append. -/
theorem listSlice_append_of_le {l t : List Char} {r : Range}
    (h : r.«end» ≤ l.length) : listSlice (l ++ t) r = listSlice l r := by
  unfold listSlice
  by_cases hs : r.start ≤ l.length
  · rw [List.drop_append_of_le_length hs]
    refine List.take_append_of_le_length ?_
    rw [List.length_drop]
    omega
  · have h0 : r.«end» - r.start = 0 := by omega
    rw [h0]
    simp

/-- Slicing the appended suffix at its own position recovers it. -/
theorem listSlice_push (l s : List Char) :
    listSlice (l ++ s) ⟨l.length, l.length + s.length⟩ = s := by
  show ((l ++ s).drop l.length).take (l.length + s.length - l.length) = s
  rw [List.drop_left]
  simp

/-- Slices that end inside the taken prefix are stable under `take`. -/
theorem listSlice_take_of_le {l : List Char} {m : Nat} {r : Range}
    (h : r.«end» ≤ m) : listSlice (l.take m) r = listSlice l r := by
  unfold listSlice
  rw [List.drop_take, List.take_take]
  congr 1
  omega

/-- `takeWhile` keeps a satisfying replicate prefix. -/
theorem takeWhile_newline_replicate (t : List Char) :
    ∀ n, (List.replicate n '\n' ++ t).takeWhile (fun c => c == '\n') =
      List.replicate n '\n' ++ t.takeWhile (fun c => c == '\n') := by
  intro n
  induction n with
  | zero => simp
  | succ k ih =>
    rw [List.replicate_succ, List.cons_append, List.takeWhile_cons]
    simp only [beq_self_eq_true, if_true]
    rw [ih, List.cons_append]

/-- Appending `n` newlines adds `n` to the trailing-newline count. -/
theorem trailingNewlines_append_newlines (l : List Char) (n : Nat) :
    trailingNewlines (l ++ List.replicate n '\n') =
      trailingNewlines l + n := by
  unfold trailingNewlines
  rw [List.reverse_append, List.reverse_replicate, takeWhile_newline_replicate]
  rw [List.length_append, List.length_replicate]
  omega

/-- Appending a non-empty newline-free chunk resets the trailing count. -/
theorem trailingNewlines_append_solid (l s : List Char) (hs0 : s ≠ [])
    (hsn : '\n' ∉ s) : trailingNewlines (l ++ s) = 0 := by
  unfold trailingNewlines
  rw [List.reverse_append]
  cases hrev : s.reverse with
  | nil =>
    exfalso
    have : s = [] := by simpa using congrArg List.reverse hrev
    exact hs0 this
  | cons c t =>
    have hc : c ∈ s := by
      have hm : c ∈ s.reverse := by rw [hrev]; exact List.mem_cons_self _ _
      simpa using hm
    have hcn : (c == '\n') = false := by
      have hne : c ≠ '\n' := fun hh => hsn (hh ▸ hc)
      simp [hne]
    rw [List.cons_append, List.takeWhile_cons, hcn]
    simp

/-- A faithful mapping entry: non-empty plain range, equal lengths, and
byte-identical plain/raw slices. -/
def entryOk (raw plain : List Char) (e : Range × Range) : Prop :=
  e.1.start < e.1.«end» ∧
  e.1.«end» - e.1.start = e.2.«end» - e.2.start ∧
  listSlice plain e.1 = listSlice raw e.2

/-- Invariant of the event walk of `extract_plain_with_mapping`: entries are
faithful, their plain ranges are chained in insertion order inside the
buffer, and everything after the last entry's end is trailing synthetic
newlines. -/
def overlayInv (raw plain : List Char)
    (mapping : List (Range × Range)) : Prop :=
  (∀ e ∈ mapping, entryOk raw plain e) ∧
  List.Chain' (fun a b : Range × Range => a.1.«end» ≤ b.1.start) mapping ∧
  (∀ e ∈ mapping, e.1.«end» ≤ plain.length) ∧
  (∀ e, mapping.getLast? = some e →
    trailingNewlines plain = plain.length - e.1.«end»)

/-- Synthetic newlines preserve the walk invariant. -/
theorem overlayInv_newlines (raw plain : List Char)
    (mapping : List (Range × Range)) (n : Nat)
    (h : overlayInv raw plain mapping) :
    overlayInv raw (plain ++ List.replicate n '\n') mapping := by
  obtain ⟨h1, h2, h3, h4⟩ := h
  refine ⟨?_, h2, ?_, ?_⟩
  · intro e he
    obtain ⟨e1, e2, e3⟩ := h1 e he
    exact ⟨e1, e2, by rw [listSlice_append_of_le (h3 e he)]; exact e3⟩
  · intro e he
    have hle := h3 e he
    rw [List.length_append]
    omega
  · intro e he
    rw [trailingNewlines_append_newlines, h4 e he]
    have hle := h3 e (getLast?_mem_of_eq he)
    rw [List.length_append, List.length_replicate]
    omega

/-- With all existing entries ending inside the buffer and a non-empty
chunk, `track` appends a fresh entry (no `IndexMap` key collision). -/
theorem track_append (plain : List Char) (mapping : List (Range × Range))
    (s : List Char) (offset : Range)
    (h3 : ∀ e ∈ mapping, e.1.«end» ≤ plain.length) (hs0 : s ≠ []) :
    track s offset plain mapping =
      (plain ++ s,
       mapping ++ [(⟨plain.length, plain.length + s.length⟩, offset)]) := by
  unfold track imInsert
  rw [if_neg ?_]
  intro hany
  obtain ⟨kv, hkv, hbeq⟩ := List.any_eq_true.mp hany
  have hk : kv.1 = ⟨plain.length, plain.length + s.length⟩ := by
    exact beq_iff_eq.mp hbeq
  have hle := h3 kv hkv
  rw [hk] at hle
  have hpos : 0 < s.length := List.length_pos.mpr hs0
  simp only [] at hle
  omega

/-- Tracking a verbatim, non-empty, newline-free chunk preserves the walk
invariant with the fresh entry appended. -/
theorem overlayInv_track (raw plain : List Char)
    (mapping : List (Range × Range)) (s : List Char) (offset : Range)
    (h : overlayInv raw plain mapping)
    (hs0 : s ≠ []) (hsv : s = listSlice raw offset)
    (hsl : s.length = offset.«end» - offset.start)
    (hsn : '\n' ∉ s) :
    overlayInv raw (plain ++ s)
      (mapping ++ [(⟨plain.length, plain.length + s.length⟩, offset)]) := by
  obtain ⟨h1, h2, h3, h4⟩ := h
  have hpos : 0 < s.length := List.length_pos.mpr hs0
  refine ⟨?_, ?_, ?_, ?_⟩
  · intro e he
    rcases List.mem_append.mp he with he' | he'
    · obtain ⟨e1, e2, e3⟩ := h1 e he'
      exact ⟨e1, e2, by rw [listSlice_append_of_le (h3 e he')]; exact e3⟩
    · simp only [List.mem_singleton] at he'
      subst he'
      refine ⟨?_, ?_, ?_⟩
      · show plain.length < plain.length + s.length
        omega
      · show plain.length + s.length - plain.length = offset.«end» - offset.start
        omega
      · rw [listSlice_push]
        exact hsv
  · rw [List.chain'_append]
    refine ⟨h2, List.chain'_singleton _, ?_⟩
    intro x hx y hy
    simp only [List.head?_cons, Option.mem_def, Option.some.injEq] at hy
    subst hy
    exact h3 x (getLast?_mem_of_eq hx)
  · intro e he
    rcases List.mem_append.mp he with he' | he'
    · have hle := h3 e he'
      rw [List.length_append]
      omega
    · simp only [List.mem_singleton] at he'
      subst he'
      rw [List.length_append]
  · intro e he
    rw [List.getLast?_concat] at he
    have he2 : e = (⟨plain.length, plain.length + s.length⟩, offset) :=
      (Option.some.injEq _ _).mp he.symm
    subst he2
    rw [trailingNewlines_append_solid plain s hs0 hsn, List.length_append]
    show 0 = plain.length + s.length - (plain.length + s.length)
    omega

/-- Whether an event tracks a link or image title. -/
def isTitleTrack : MdEvent → Bool
  | MdEvent.End (MdTag.Link _) => true
  | MdEvent.End (MdTag.Image _) => true
  | _ => false

/-- The event walk preserves the overlay invariant when no link/image title
is tracked and every `Text` payload is a verbatim, non-empty, newline-free
slice of the raw input at its offset. -/
theorem extractGo_inv (raw : List Char) :
    ∀ (events : List (MdEvent × Range)) (cb : Bool) (plain : List Char)
      (mapping : List (Range × Range)),
    (∀ e ∈ events, isTitleTrack e.1 = false) →
    (∀ e ∈ events, ∀ s, e.1 = MdEvent.Text s →
      s ≠ [] ∧ '\n' ∉ s ∧ s = listSlice raw e.2 ∧
        s.length = e.2.«end» - e.2.start) →
    overlayInv raw plain mapping →
    overlayInv raw (extractGo events cb plain mapping).1
      (extractGo events cb plain mapping).2 := by
  intro events
  induction events with
  | nil => intro cb plain mapping _ _ h; exact h
  | cons ev events ih =>
    intro cb plain mapping htitle htext h
    obtain ⟨e, offset⟩ := ev
    have htitle2 := fun e2 he2 => htitle e2 (List.mem_cons_of_mem _ he2)
    have htext2 := fun e2 he2 => htext e2 (List.mem_cons_of_mem _ he2)
    cases e with
    | Start tag =>
      cases tag <;> (simp only [extractGo]; exact ih _ _ _ htitle2 htext2 h)
    | End tag =>
      cases tag with
      | Link title =>
        exact absurd
          (htitle (MdEvent.End (MdTag.Link title), offset)
            (List.mem_cons_self _ _))
          (by simp [isTitleTrack])
      | Image title =>
        exact absurd
          (htitle (MdEvent.End (MdTag.Image title), offset)
            (List.mem_cons_self _ _))
          (by simp [isTitleTrack])
      | Heading =>
        simp only [extractGo]
        exact ih _ _ _ htitle2 htext2 (overlayInv_newlines raw plain mapping 2 h)
      | CodeBlock =>
        simp only [extractGo]
        exact ih _ _ _ htitle2 htext2 h
      | Paragraph =>
        simp only [extractGo]
        exact ih _ _ _ htitle2 htext2 (overlayInv_newlines raw plain mapping 2 h)
      | Other =>
        simp only [extractGo]
        exact ih _ _ _ htitle2 htext2 h
    | Text s =>
      simp only [extractGo]
      cases cb with
      | true =>
        simp only [if_true]
        exact ih _ _ _ htitle2 htext2 h
      | false =>
        simp only [Bool.false_eq_true, if_false]
        obtain ⟨hs0, hsn, hsv, hsl⟩ :=
          htext (MdEvent.Text s, offset) (List.mem_cons_self _ _) s rfl
        rw [track_append plain mapping s offset h.2.2.1 hs0]
        exact ih _ _ _ htitle2 htext2
          (overlayInv_track raw plain mapping s offset h hs0 hsv hsl hsn)
    | Code => simp only [extractGo]; exact ih _ _ _ htitle2 htext2 h
    | Html => simp only [extractGo]; exact ih _ _ _ htitle2 htext2 h
    | FootnoteReference =>
      simp only [extractGo]; exact ih _ _ _ htitle2 htext2 h
    | SoftBreak =>
      simp only [extractGo]
      exact ih _ _ _ htitle2 htext2 (overlayInv_newlines raw plain mapping 1 h)
    | HardBreak =>
      simp only [extractGo]
      exact ih _ _ _ htitle2 htext2 (overlayInv_newlines raw plain mapping 2 h)
    | Rule =>
      simp only [extractGo]
      exact ih _ _ _ htitle2 htext2 (overlayInv_newlines raw plain mapping 1 h)
    | TaskListMarker =>
      simp only [extractGo]; exact ih _ _ _ htitle2 htext2 h

/-- C2 (amended): for every overlay whose events track no link/image title
and whose `Text` payloads are verbatim, non-empty, newline-free slices of
the raw input (the parser's guarantees for plain text runs), extraction
succeeds and every mapping entry `(p, r)` satisfies `len(p) = len(r)` and
`plain[p] = raw[r]`; the link/image-title entries excluded here violate both
equalities (see the counterexample). -/
theorem extract_plain_with_mapping_roundtrip (raw : List Char)
    (events : List (MdEvent × Range))
    (htitle : ∀ e ∈ events, isTitleTrack e.1 = false)
    (htext : ∀ e ∈ events, ∀ s, e.1 = MdEvent.Text s →
      s ≠ [] ∧ '\n' ∉ s ∧ s = listSlice raw e.2 ∧
        s.length = e.2.«end» - e.2.start) :
    ∃ plain mapping,
      extract_plain_with_mapping events = some (plain, mapping) ∧
      ∀ e ∈ mapping,
        e.1.«end» - e.1.start = e.2.«end» - e.2.start ∧
        listSlice plain e.1 = listSlice raw e.2 := by
  have hbase : overlayInv raw [] [] := by
    refine ⟨by simp, by simp, by simp, by simp⟩
  have hinv := extractGo_inv raw events false [] [] htitle htext hbase
  obtain ⟨h1, h2, h3, h4⟩ := hinv
  simp only [extract_plain_with_mapping]
  cases hlast : (extractGo events false [] []).2.getLast? with
  | none =>
    have hnil : (extractGo events false [] []).2 = [] := by
      cases hc : (extractGo events false [] []).2 with
      | nil => rfl
      | cons a t =>
        obtain ⟨x, hx⟩ := getLast?_isSome_of_ne_nil (a :: t) (by simp)
        rw [hc, hx] at hlast
        exact Option.noConfusion hlast
    rw [show imPop (extractGo events false [] []).2 = none from by
      simp [imPop, hlast]]
    refine ⟨_, _, rfl, ?_⟩
    rw [hnil]
    simp
  | some e =>
    have hmem : e ∈ (extractGo events false [] []).2 := getLast?_mem_of_eq hlast
    have htn := h4 e hlast
    have hend_le : e.1.«end» ≤ (extractGo events false [] []).1.length :=
      h3 e hmem
    obtain ⟨hlt, hlen, hslice⟩ := h1 e hmem
    have htn_le : trailingNewlines (extractGo events false [] []).1 ≤
        (extractGo events false [] []).1.length := by
      rw [htn]; omega
    have hsplit : (extractGo events false [] []).2.dropLast ++ [e] =
        (extractGo events false [] []).2 := by
      obtain ⟨hne2, heq⟩ := List.mem_getLast?_eq_getLast
        (show e ∈ (extractGo events false [] []).2.getLast? from hlast)
      rw [heq]
      exact List.dropLast_append_getLast hne2
    have hkchain : List.Chain' (fun a b : Range => a.«end» ≤ b.start)
        ((extractGo events false [] []).2.map (fun kv : Range × Range => kv.1)) :=
      (List.chain'_map _).mpr h2
    have hkne : ∀ r ∈ (extractGo events false [] []).2.map
        (fun kv : Range × Range => kv.1), r.start < r.«end» := by
      intro r hr
      obtain ⟨e2, he2, rfl⟩ := List.mem_map.mp hr
      exact (h1 e2 he2).1
    have hkpair := chain_sep_pairwise _ hkne hkchain
    have hkeys_split : (extractGo events false [] []).2.map
        (fun kv : Range × Range => kv.1) =
        ((extractGo events false [] []).2.dropLast.map
          (fun kv : Range × Range => kv.1)) ++ [e.1] := by
      conv_lhs => rw [← hsplit]
      rw [List.map_append]
      rfl
    have hbound : ∀ kv ∈ (extractGo events false [] []).2.dropLast,
        kv.1.«end» ≤ e.1.start := by
      intro kv hkv
      have hp := hkpair
      rw [hkeys_split] at hp
      exact (List.pairwise_append.mp hp).2.2 kv.1
        (List.mem_map_of_mem _ hkv) e.1 (List.mem_singleton_self _)
    rw [show imPop (extractGo events false [] []).2 =
        some (e, (extractGo events false [] []).2.dropLast) from by
      simp [imPop, hlast]]
    rw [if_pos htn_le]
    have hplain2 : (extractGo events false [] []).1.take
        ((extractGo events false [] []).1.length -
          trailingNewlines (extractGo events false [] []).1) =
        (extractGo events false [] []).1.take e.1.«end» := by
      congr 1
      omega
    rw [hplain2]
    have hlen2 : ((extractGo events false [] []).1.take e.1.«end»).length =
        e.1.«end» := by
      rw [List.length_take]
      omega
    dsimp only
    rw [hlen2, ite_self, if_pos (Nat.le_of_lt hlt)]
    have hnocol : ((extractGo events false [] []).2.dropLast.any
        (fun kv => kv.1 == (⟨e.1.start, e.1.«end»⟩ : Range))) = false := by
      rw [List.any_eq_false]
      intro kv hkv
      intro hb
      have hkeq : kv.1 = ⟨e.1.start, e.1.«end»⟩ := beq_iff_eq.mp hb
      have hb2 := hbound kv hkv
      rw [hkeq] at hb2
      simp only [] at hb2
      omega
    rw [show imInsert (extractGo events false [] []).2.dropLast
        ⟨e.1.start, e.1.«end»⟩ e.2 =
        (extractGo events false [] []).2.dropLast ++ [(⟨e.1.start, e.1.«end»⟩, e.2)]
        from by rw [imInsert, if_neg (by rw [hnocol]; exact fun hh => Bool.noConfusion hh)]]
    have hee : ((⟨e.1.start, e.1.«end»⟩ : Range), e.2) = e := rfl
    rw [hee, hsplit]
    refine ⟨_, _, rfl, ?_⟩
    intro e2 he2
    obtain ⟨g1, g2, g3⟩ := h1 e2 he2
    refine ⟨g2, ?_⟩
    have he2end : e2.1.«end» ≤ e.1.«end» := by
      rw [← hsplit] at he2
      rcases List.mem_append.mp he2 with he2' | he2'
      · have := hbound e2 he2'
        omega
      · simp only [List.mem_singleton] at he2'
        subst he2'
        exact Nat.le_refl _
    rw [listSlice_take_of_le he2end]
    exact g3

/-- C2 amended-claim witness: a heading text and a soft break produce an
overlay whose single entry satisfies the round-trip invariant. -/
theorem extract_plain_with_mapping_roundtrip_witness :
    ∃ plain mapping,
      extract_plain_with_mapping
          [(MdEvent.Text "ab".toList, ⟨2, 4⟩), (MdEvent.SoftBreak, ⟨4, 5⟩)] =
        some (plain, mapping) ∧
      ∀ e ∈ mapping,
        e.1.«end» - e.1.start = e.2.«end» - e.2.start ∧
        listSlice plain e.1 = listSlice "# ab\n".toList e.2 :=
  extract_plain_with_mapping_roundtrip "# ab\n".toList
    [(MdEvent.Text "ab".toList, ⟨2, 4⟩), (MdEvent.SoftBreak, ⟨4, 5⟩)]
    (by decide)
    (by
      intro e he s hs
      simp only [List.mem_cons, List.not_mem_nil, or_false] at he
      rcases he with rfl | rfl
      · simp only [MdEvent.Text.injEq] at hs
        subst hs
        refine ⟨by decide, by decide, by decide, by decide⟩
      · exact MdEvent.noConfusion hs)

end Spellcheck
